import Mathlib

/-!
Verification of the exemplar-merge and gRPC-client-configuration core of the
repository.  The data model follows `cortexpb` (`Exemplar`, `TimeSeries`) and
`ingester_client.ExemplarQueryResponse`; the client configuration follows
`pkg/util/grpcclient/grpcclient.go`.

Machine-value conventions of the embedding:
* `int64` timestamps become `Int` (the code only compares them, never does
  arithmetic, so the embedding is exact);
* `float64` exemplar values are opaque payloads for the merge (never computed
  on, only carried and compared for structural equality), embedded as `Int`;
* the `float64` rate limit is only compared against `0`, embedded as `Rat`.
-/

namespace Cortex

/-- A label set: an ordered sequence of (name, value) string pairs, as in
`[]cortexpb.LabelAdapter`. -/
abbrev LabelSet := List (String × String)

/-- Model of `cortexpb.Exemplar`: exemplar labels, a millisecond timestamp and a value. -/
structure Exemplar where
  labels : LabelSet
  timestampMs : Int
  value : Int
deriving DecidableEq, Repr

/-- Model of `cortexpb.TimeSeries` as used by the exemplar merge: series labels and the
exemplar sequence. -/
structure TimeSeries where
  labels : LabelSet
  exemplars : List Exemplar
deriving DecidableEq, Repr

/-- Model of `ingester_client.ExemplarQueryResponse`. -/
structure ExemplarQueryResponse where
  timeseries : List TimeSeries
deriving DecidableEq, Repr

/-- The canonical fingerprint of a label set, flattened to a list of strings
(name, value, name, value, ...); stands for the key string the code builds
from the label adapters.  It is injective, and lists of strings carry the
lexicographic linear order used to sort the merged output. -/
def flatKey : LabelSet → List String
  | [] => []
  | (n, v) :: rest => n :: v :: flatKey rest

/-!
Kernel-evaluable decision procedures for the string and string-list orders:
the library's `String` comparison decision procedure is built on opaque
iterator primitives, so concrete runs are decided through the character-list
view instead.  Only the `Decidable` wrappers change; the order propositions
and all their lemmas are the library's. -/

instance (priority := 2000) decidableStrLt :
    DecidableRel ((· < ·) : String → String → Prop) :=
  fun a b => decidable_of_iff (a.toList < b.toList) String.lt_iff_toList_lt.symm

instance (priority := 2000) decidableStrLe :
    DecidableRel ((· ≤ ·) : String → String → Prop) :=
  fun a b => decidable_of_iff (a.toList ≤ b.toList) String.le_iff_toList_le.symm

instance (priority := 2000) decidableStrListLt :
    DecidableRel ((· < ·) : List String → List String → Prop) :=
  fun x y => decidable_of_iff (List.Lex (· < ·) x y) Iff.rfl

instance (priority := 2000) decidableStrListLe :
    DecidableRel ((· ≤ ·) : List String → List String → Prop) :=
  fun x y => decidable_of_iff (x = y ∨ List.Lex (· < ·) x y) Iff.rfl

/-- Timestamp order on exemplars (the order of the final per-series sort). -/
def tsLe (a b : Exemplar) : Prop := a.timestampMs ≤ b.timestampMs

/-- Strict timestamp order on exemplars. -/
def tsLt (a b : Exemplar) : Prop := a.timestampMs < b.timestampMs

/-- Canonical-key order on merged series (the order of the final series sort). -/
def seriesLe (a b : TimeSeries) : Prop := flatKey a.labels ≤ flatKey b.labels

/-- Strict canonical-key order on merged series. -/
def seriesLt (a b : TimeSeries) : Prop := flatKey a.labels < flatKey b.labels

instance : DecidableRel tsLe := fun a b =>
  inferInstanceAs (Decidable (a.timestampMs ≤ b.timestampMs))

instance : DecidableRel tsLt := fun a b =>
  inferInstanceAs (Decidable (a.timestampMs < b.timestampMs))

instance : DecidableRel seriesLe := fun a b =>
  inferInstanceAs (Decidable (flatKey a.labels ≤ flatKey b.labels))

instance : DecidableRel seriesLt := fun a b =>
  inferInstanceAs (Decidable (flatKey a.labels < flatKey b.labels))

instance : IsTotal Exemplar tsLe := ⟨fun a b => Int.le_total a.timestampMs b.timestampMs⟩

instance : IsTrans Exemplar tsLe := ⟨fun _ _ _ h₁ h₂ => le_trans h₁ h₂⟩

instance : IsAntisymm Exemplar tsLt :=
  ⟨fun _ _ h₁ h₂ => absurd (lt_trans h₁ h₂) (lt_irrefl _)⟩

instance : IsTotal TimeSeries seriesLe := ⟨fun _ _ => le_total _ _⟩

instance : IsTrans TimeSeries seriesLe := ⟨fun _ _ _ h₁ h₂ => le_trans h₁ h₂⟩

instance : IsAntisymm TimeSeries seriesLt :=
  ⟨fun _ _ h₁ h₂ => absurd (lt_trans h₁ h₂) (lt_irrefl _)⟩

/-- Modelled from the spec (the merge function `mergeExemplarQueryResponses`
of the distributor is not among the provided sources, only its test is):
insert an exemplar into an accumulator's timestamp mapping only if no exemplar
is already recorded for that exact timestamp — first input, first occurrence
wins.  The mapping is kept as the list of recorded exemplars in insertion
order; distinctness of their timestamps is the mapping invariant. -/
def insertExemplar (acc : List Exemplar) (e : Exemplar) : List Exemplar :=
  if ∃ x ∈ acc, x.timestampMs = e.timestampMs then acc else acc ++ [e]

/-- Insert a sequence of exemplars in order, first occurrence winning. -/
def insertExemplars (acc : List Exemplar) (es : List Exemplar) : List Exemplar :=
  es.foldl insertExemplar acc

/-- The merge accumulator: an insertion-ordered mapping from label-set
fingerprint to the recorded exemplars. -/
abbrev Accum := List (LabelSet × List Exemplar)

/-- Modelled from the spec: process one `TimeSeries` into the accumulator —
a new fingerprint creates an accumulator entry at the first-seen position,
an existing one receives the series' exemplars through `insertExemplars`. -/
def updateEntry : Accum → LabelSet → List Exemplar → Accum
  | [], k, es => [(k, insertExemplars [] es)]
  | kv :: rest, k, es =>
    if kv.1 = k then (kv.1, insertExemplars kv.2 es) :: rest
    else kv :: updateEntry rest k es

/-- Process one response: its series strictly in the order given. -/
def processResponse (m : Accum) (r : ExemplarQueryResponse) : Accum :=
  r.timeseries.foldl (fun m s => updateEntry m s.labels s.exemplars) m

/-- Modelled from the spec: the merge of a list of exemplar query responses
(`mergeExemplarQueryResponses`; the function itself is not among the provided
sources, only its test is).  Responses are processed strictly in input order,
exemplars deduplicate by timestamp with the first occurrence winning, each
merged series' exemplars are sorted ascending by timestamp, and — as
`TestMergeExemplars` requires by checking the disjoint-series case in both
input orders against the same expected output — the merged series are emitted
sorted ascending by canonical label key, not in the spec's first-seen order. -/
def mergeExemplarQueryResponses (rs : List ExemplarQueryResponse) : ExemplarQueryResponse :=
  let m := rs.foldl processResponse []
  let series := m.map fun kv =>
    { labels := kv.1, exemplars := List.insertionSort tsLe kv.2 : TimeSeries }
  { timeseries := List.insertionSort seriesLe series }

/-- The stream of series the merge processes: all series of all responses, in
encounter order. -/
def seriesStream (rs : List ExemplarQueryResponse) : List TimeSeries :=
  rs.foldr (fun r acc => r.timeseries ++ acc) []

/-- All exemplars the inputs hold for label set `k`, in encounter order. -/
def exemplarsFor (k : LabelSet) : List TimeSeries → List Exemplar
  | [] => []
  | s :: rest => (if s.labels = k then s.exemplars else []) ++ exemplarsFor k rest

/-- First-match lookup in the accumulator. -/
def findAcc : Accum → LabelSet → Option (List Exemplar)
  | [], _ => none
  | kv :: rest, k => if kv.1 = k then some kv.2 else findAcc rest k

/-- Record a label-set fingerprint at its first-seen position. -/
def insertKey (ks : List LabelSet) (k : LabelSet) : List LabelSet :=
  if k ∈ ks then ks else ks ++ [k]

/-- The label sets of a series stream in first-encountered order, each kept
once (the spec's claimed output order of the merge). -/
def firstSeenKeys (ss : List TimeSeries) : List LabelSet :=
  (ss.map (·.labels)).foldl insertKey []

/-- The accumulator built from a series stream. -/
def accumulate (ss : List TimeSeries) : Accum :=
  ss.foldl (fun m s => updateEntry m s.labels s.exemplars) []

/-- The first exemplar of a sequence holding the given timestamp, if any. -/
def findTs : List Exemplar → Int → Option Exemplar
  | [], _ => none
  | e :: rest, t => if e.timestampMs = t then some e else findTs rest t

/-! ### gRPC client configuration (`pkg/util/grpcclient/grpcclient.go`) -/

/-- Model of `Config` of the gRPC client, restricted to the fields the verified
operations read (`TLS`, backoff parameters and the connect timeout only feed
collaborators that are outside the sources).  `RateLimit` is a `float64` the
code only compares against `0`, embedded as `Rat`. -/
structure Config where
  MaxRecvMsgSize : Int
  MaxSendMsgSize : Int
  GRPCCompression : String
  RateLimit : Rat
  RateLimitBurst : Int
  BackoffOnRatelimits : Bool
  SignWriteRequestsEnabled : Bool
deriving DecidableEq, Repr

/-- Value of `gzip.Name` of the gRPC gzip encoding package. -/
def gzipName : String := "gzip"

/-- Modelled from the spec: `snappy.Name` of `pkg/util/grpcencoding/snappy`
(not among the provided sources); the registered codec name. -/
def snappyName : String := "snappy"

/-- Modelled from the spec: `snappyblock.Name` of
`pkg/util/grpcencoding/snappyblock` (not among the provided sources). -/
def snappyBlockName : String := "snappy-block"

/-- Modelled from the spec: `zstd.Name` of `pkg/util/grpcencoding/zstd`
(not among the provided sources). -/
def zstdName : String := "zstd"

/-- Model of `Config.Validate`: `none` is success, `some msg` the returned error.
The switch accepts exactly `gzip.Name`, `snappy.Name`, `zstd.Name`,
`snappyblock.Name` and the empty string. -/
def Config.Validate (cfg : Config) : Option String :=
  if cfg.GRPCCompression = gzipName ∨ cfg.GRPCCompression = snappyName
      ∨ cfg.GRPCCompression = zstdName ∨ cfg.GRPCCompression = snappyBlockName
      ∨ cfg.GRPCCompression = "" then
    none
  else
    some ("unsupported compression type: " ++ cfg.GRPCCompression)

/-- The call options `Config.CallOptions` can append. -/
inductive CallOption where
  | maxCallRecvMsgSize (n : Int)
  | maxCallSendMsgSize (n : Int)
  | useCompressor (name : String)
deriving DecidableEq, Repr

/-- Model of `Config.CallOptions`: always the receive and send size ceilings, plus a
compressor exactly when `GRPCCompression` is non-empty. -/
def Config.CallOptions (cfg : Config) : List CallOption :=
  let opts : List CallOption := []
  let opts := opts ++ [CallOption.maxCallRecvMsgSize cfg.MaxRecvMsgSize]
  let opts := opts ++ [CallOption.maxCallSendMsgSize cfg.MaxSendMsgSize]
  if cfg.GRPCCompression ≠ "" then opts ++ [CallOption.useCompressor cfg.GRPCCompression]
  else opts

/-- The unary client interceptors `Config.DialOption` chains; `provided n`
stands for the n-th caller-supplied interceptor of its argument list. -/
inductive UnaryInterceptor where
  | backoffRetry
  | rateLimiter
  | signing
  | provided (n : Nat)
deriving DecidableEq, Repr

/-- The unary interceptor list `Config.DialOption` hands to
`middleware.ChainUnaryClient`, built from a caller-supplied list exactly as
the code does: prepend the backoff-retry interceptor when
`BackoffOnRatelimits` is set, then prepend the rate limiter when
`RateLimit > 0`, then append the signing interceptor when
`SignWriteRequestsEnabled` is set.  Position 0 is the outermost (first
invoked) interceptor of the chain; the last position is innermost. -/
def Config.unaryInterceptorChain (cfg : Config)
    (interceptors : List UnaryInterceptor) : List UnaryInterceptor :=
  let l := interceptors
  let l := if cfg.BackoffOnRatelimits then UnaryInterceptor.backoffRetry :: l else l
  let l := if 0 < cfg.RateLimit then UnaryInterceptor.rateLimiter :: l else l
  let l := if cfg.SignWriteRequestsEnabled then l ++ [UnaryInterceptor.signing] else l
  l

/-! ### Lemmas: timestamp lookup and first-wins insertion -/

theorem findTs_some {es : List Exemplar} {t : Int} {e : Exemplar}
    (h : findTs es t = some e) : e ∈ es ∧ e.timestampMs = t := by
  induction es with
  | nil => simp [findTs] at h
  | cons x rest ih =>
    rw [findTs] at h
    by_cases hx : x.timestampMs = t
    · rw [if_pos hx] at h
      cases h
      exact ⟨List.mem_cons_self .., hx⟩
    · rw [if_neg hx] at h
      obtain ⟨h1, h2⟩ := ih h
      exact ⟨List.mem_cons_of_mem _ h1, h2⟩

theorem findTs_eq_none {es : List Exemplar} {t : Int} :
    findTs es t = none ↔ ¬∃ x ∈ es, x.timestampMs = t := by
  induction es with
  | nil => simp [findTs]
  | cons x rest ih =>
    rw [findTs]
    by_cases hx : x.timestampMs = t
    · simp [hx]
    · simp only [if_neg hx, ih, List.mem_cons]
      constructor
      · rintro h ⟨y, hy | hy, hyt⟩
        · exact hx (hy ▸ hyt)
        · exact h ⟨y, hy, hyt⟩
      · intro h ⟨y, hy, hyt⟩
        exact h ⟨y, Or.inr hy, hyt⟩

theorem findTs_isSome_iff {es : List Exemplar} {t : Int} :
    (∃ e, findTs es t = some e) ↔ ∃ x ∈ es, x.timestampMs = t := by
  constructor
  · rintro ⟨e, he⟩
    obtain ⟨h1, h2⟩ := findTs_some he
    exact ⟨e, h1, h2⟩
  · intro h
    cases he : findTs es t with
    | none => exact absurd h (findTs_eq_none.mp he)
    | some e => exact ⟨e, rfl⟩

theorem findTs_append {a b : List Exemplar} {t : Int} :
    findTs (a ++ b) t =
      match findTs a t with
      | some e => some e
      | none => findTs b t := by
  induction a with
  | nil => simp [findTs]
  | cons x rest ih =>
    by_cases hx : x.timestampMs = t
    · simp [findTs, if_pos hx]
    · simp only [List.cons_append, findTs, if_neg hx]
      exact ih

theorem insertExemplar_of_present {acc : List Exemplar} {e : Exemplar}
    (h : ∃ x ∈ acc, x.timestampMs = e.timestampMs) :
    insertExemplar acc e = acc := by
  rw [insertExemplar, if_pos h]

theorem insertExemplar_of_absent {acc : List Exemplar} {e : Exemplar}
    (h : ¬∃ x ∈ acc, x.timestampMs = e.timestampMs) :
    insertExemplar acc e = acc ++ [e] := by
  rw [insertExemplar, if_neg h]

theorem findTs_insertExemplar {acc : List Exemplar} {e : Exemplar} {t : Int} :
    findTs (insertExemplar acc e) t =
      match findTs acc t with
      | some x => some x
      | none => if e.timestampMs = t then some e else none := by
  by_cases hp : ∃ x ∈ acc, x.timestampMs = e.timestampMs
  · rw [insertExemplar_of_present hp]
    cases hf : findTs acc t with
    | some x => rfl
    | none =>
      by_cases het : e.timestampMs = t
      · exact absurd ⟨hp.choose, hp.choose_spec.1, hp.choose_spec.2.trans het⟩
          (findTs_eq_none.mp hf)
      · simp [if_neg het]
  · rw [insertExemplar_of_absent hp, findTs_append]
    cases hf : findTs acc t with
    | some x => rfl
    | none => simp [findTs]

theorem findTs_insertExemplars {es : List Exemplar} :
    ∀ {acc : List Exemplar} {t : Int},
      findTs (insertExemplars acc es) t =
        match findTs acc t with
        | some x => some x
        | none => findTs es t := by
  induction es with
  | nil =>
    intro acc t
    cases hf : findTs acc t <;> simp [insertExemplars, findTs, hf]
  | cons e rest ih =>
    intro acc t
    have hstep : insertExemplars acc (e :: rest) =
        insertExemplars (insertExemplar acc e) rest := rfl
    rw [hstep, ih, findTs_insertExemplar]
    cases hf : findTs acc t with
    | some x => rfl
    | none =>
      by_cases het : e.timestampMs = t
      · simp [findTs, if_pos het]
      · simp [findTs, if_neg het]

theorem findTs_dedup {es : List Exemplar} {t : Int} :
    findTs (insertExemplars [] es) t = findTs es t := by
  rw [findTs_insertExemplars]
  rfl

theorem mem_insertExemplars_of_mem {es acc : List Exemplar} {x : Exemplar}
    (h : x ∈ acc) : x ∈ insertExemplars acc es := by
  induction es generalizing acc with
  | nil => exact h
  | cons e rest ih =>
    have hstep : insertExemplars acc (e :: rest) =
        insertExemplars (insertExemplar acc e) rest := rfl
    rw [hstep]
    apply ih
    rw [insertExemplar]
    split
    · exact h
    · exact List.mem_append_left _ h

theorem mem_of_mem_insertExemplars {es : List Exemplar} :
    ∀ {acc : List Exemplar} {x : Exemplar},
      x ∈ insertExemplars acc es → x ∈ acc ∨ x ∈ es := by
  induction es with
  | nil => intro acc x h; exact Or.inl h
  | cons e rest ih =>
    intro acc x h
    have hstep : insertExemplars acc (e :: rest) =
        insertExemplars (insertExemplar acc e) rest := rfl
    rw [hstep] at h
    rcases ih h with hm | hm
    · rw [insertExemplar] at hm
      split at hm
      · exact Or.inl hm
      · rcases List.mem_append.mp hm with hm | hm
        · exact Or.inl hm
        · simp only [List.mem_singleton] at hm
          exact Or.inr (hm ▸ List.mem_cons_self ..)
    · exact Or.inr (List.mem_cons_of_mem _ hm)

theorem nodupTs_insertExemplars {es : List Exemplar} :
    ∀ {acc : List Exemplar},
      (acc.map (·.timestampMs)).Nodup →
      ((insertExemplars acc es).map (·.timestampMs)).Nodup := by
  induction es with
  | nil => intro acc h; exact h
  | cons e rest ih =>
    intro acc h
    have hstep : insertExemplars acc (e :: rest) =
        insertExemplars (insertExemplar acc e) rest := rfl
    rw [hstep]
    apply ih
    rw [insertExemplar]
    split
    · exact h
    · next habs =>
      rw [List.map_append, List.nodup_append]
      refine ⟨h, List.nodup_singleton _, ?_⟩
      intro t ht ht'
      simp only [List.map_cons, List.map_nil, List.mem_singleton] at ht'
      obtain ⟨x, hx, hxt⟩ := List.mem_map.mp ht
      exact habs ⟨x, hx, hxt.trans ht'⟩

theorem dedupTs_nodup {es : List Exemplar} :
    ((insertExemplars [] es).map (·.timestampMs)).Nodup :=
  nodupTs_insertExemplars List.nodup_nil

/-- In a sequence whose timestamps are distinct, lookup by an element's own
timestamp finds exactly that element. -/
theorem findTs_of_nodup_mem {es : List Exemplar} {x : Exemplar}
    (hn : (es.map (·.timestampMs)).Nodup) (hx : x ∈ es) :
    findTs es x.timestampMs = some x := by
  induction es with
  | nil => cases hx
  | cons e rest ih =>
    rw [List.map_cons, List.nodup_cons] at hn
    rcases List.mem_cons.mp hx with hx | hx
    · subst hx
      simp [findTs]
    · rw [findTs]
      have hne : e.timestampMs ≠ x.timestampMs := by
        intro hcontra
        exact hn.1 (hcontra ▸ List.mem_map.mpr ⟨x, hx, rfl⟩)
      rw [if_neg hne]
      exact ih hn.2 hx

theorem mem_dedup_iff_findTs {es : List Exemplar} {x : Exemplar} :
    x ∈ insertExemplars [] es ↔ findTs es x.timestampMs = some x := by
  constructor
  · intro h
    rw [← findTs_dedup]
    exact findTs_of_nodup_mem dedupTs_nodup h
  · intro h
    have h' : findTs (insertExemplars [] es) x.timestampMs = some x :=
      findTs_dedup.trans h
    exact (findTs_some h').1

/-- Inserting a sequence with pairwise-distinct timestamps, none already
recorded, appends it unchanged. -/
theorem insertExemplars_of_fresh {es : List Exemplar} :
    ∀ {acc : List Exemplar},
      ((es.map (·.timestampMs)).Nodup) →
      (∀ e ∈ es, ¬∃ x ∈ acc, x.timestampMs = e.timestampMs) →
      insertExemplars acc es = acc ++ es := by
  induction es with
  | nil => intro acc _ _; simp [insertExemplars]
  | cons e rest ih =>
    intro acc hn hfresh
    rw [List.map_cons, List.nodup_cons] at hn
    have hstep : insertExemplars acc (e :: rest) =
        insertExemplars (insertExemplar acc e) rest := rfl
    rw [hstep, insertExemplar_of_absent (hfresh e (List.mem_cons_self ..))]
    rw [ih hn.2 ?_]
    · simp
    · intro y hy ⟨x, hx, hxt⟩
      rcases List.mem_append.mp hx with hx | hx
      · exact hfresh y (List.mem_cons_of_mem _ hy) ⟨x, hx, hxt⟩
      · simp only [List.mem_singleton] at hx
        subst hx
        exact hn.1 (hxt ▸ List.mem_map.mpr ⟨y, hy, rfl⟩)

/-- Deduplication leaves a sequence with pairwise-distinct timestamps
unchanged. -/
theorem dedupTs_of_nodup {es : List Exemplar}
    (hn : (es.map (·.timestampMs)).Nodup) :
    insertExemplars [] es = es := by
  rw [insertExemplars_of_fresh hn (by simp), List.nil_append]

/-- Inserting exemplars whose timestamps are all already recorded is a no-op. -/
theorem insertExemplars_of_all_present {es : List Exemplar} :
    ∀ {acc : List Exemplar},
      (∀ e ∈ es, ∃ x ∈ acc, x.timestampMs = e.timestampMs) →
      insertExemplars acc es = acc := by
  induction es with
  | nil => intro acc _; rfl
  | cons e rest ih =>
    intro acc hall
    have hstep : insertExemplars acc (e :: rest) =
        insertExemplars (insertExemplar acc e) rest := rfl
    rw [hstep, insertExemplar_of_present (hall e (List.mem_cons_self ..))]
    exact ih fun y hy => hall y (List.mem_cons_of_mem _ hy)

/-! ### Lemmas: the accumulator -/

theorem insertExemplars_append {v a b : List Exemplar} :
    insertExemplars v (a ++ b) = insertExemplars (insertExemplars v a) b :=
  List.foldl_append ..

theorem findAcc_updateEntry {m : Accum} {kp : LabelSet} {es : List Exemplar} {k : LabelSet} :
    findAcc (updateEntry m kp es) k =
      if k = kp then some (insertExemplars ((findAcc m kp).getD []) es)
      else findAcc m k := by
  induction m with
  | nil =>
    by_cases h : k = kp
    · subst h
      simp [updateEntry, findAcc]
    · rw [updateEntry, if_neg h]
      simp [findAcc, Ne.symm h]
  | cons kv rest ih =>
    rw [updateEntry]
    by_cases hkv : kv.1 = kp
    · rw [if_pos hkv]
      by_cases hk : k = kp
      · subst hk
        simp [findAcc, hkv]
      · have h1 : kv.1 ≠ k := fun hc => hk (hc ▸ hkv)
        simp [findAcc, h1, hk]
    · rw [if_neg hkv]
      by_cases hk : kv.1 = k
      · have h2 : k ≠ kp := fun hc => hkv (hk.trans hc)
        simp [findAcc, hk, h2]
      · simp only [findAcc, if_neg hk, ih]
        by_cases h3 : k = kp
        · simp [h3, if_neg hkv]
        · simp [h3]

theorem keys_updateEntry {m : Accum} {k : LabelSet} {es : List Exemplar} :
    (updateEntry m k es).map Prod.fst = insertKey (m.map Prod.fst) k := by
  induction m with
  | nil => simp [updateEntry, insertKey]
  | cons kv rest ih =>
    rw [updateEntry, insertKey]
    by_cases hkv : kv.1 = k
    · simp [hkv]
    · rw [if_neg hkv, List.map_cons, ih, insertKey, List.map_cons]
      by_cases hmem : k ∈ rest.map Prod.fst
      · rw [if_pos hmem, if_pos (List.mem_cons_of_mem _ hmem)]
      · rw [if_neg hmem, if_neg ?_, List.cons_append]
        intro hc
        rcases List.mem_cons.mp hc with hc | hc
        · exact hkv hc.symm
        · exact hmem hc

theorem findAcc_some_mem {m : Accum} {k : LabelSet} {v : List Exemplar}
    (h : findAcc m k = some v) : (k, v) ∈ m := by
  induction m with
  | nil => simp [findAcc] at h
  | cons kv rest ih =>
    rw [findAcc] at h
    by_cases hkv : kv.1 = k
    · rw [if_pos hkv] at h
      cases h
      exact hkv ▸ List.mem_cons_self ..
    · rw [if_neg hkv] at h
      exact List.mem_cons_of_mem _ (ih h)

theorem accum_eq_map_keys {m : Accum} (h : (m.map Prod.fst).Nodup) :
    m = (m.map Prod.fst).map (fun k => (k, (findAcc m k).getD [])) := by
  induction m with
  | nil => rfl
  | cons kv rest ih =>
    rw [List.map_cons, List.nodup_cons] at h
    rw [List.map_cons, List.map_cons, findAcc, if_pos rfl]
    have hrest : (rest.map Prod.fst).map (fun k => (k, (findAcc (kv :: rest) k).getD []))
        = (rest.map Prod.fst).map (fun k => (k, (findAcc rest k).getD [])) := by
      apply List.map_congr_left
      intro k hk
      have hne : kv.1 ≠ k := fun hc => h.1 (hc ▸ hk)
      rw [findAcc, if_neg hne]
    rw [hrest, ← ih h.2]
    rfl

/-! ### Lemmas: series streams and their exemplars -/

theorem seriesStream_cons {r : ExemplarQueryResponse} {rs : List ExemplarQueryResponse} :
    seriesStream (r :: rs) = r.timeseries ++ seriesStream rs := rfl

theorem seriesStream_pair {A B : ExemplarQueryResponse} :
    seriesStream [A, B] = A.timeseries ++ B.timeseries := by
  simp [seriesStream]

theorem exemplarsFor_append {k : LabelSet} {a b : List TimeSeries} :
    exemplarsFor k (a ++ b) = exemplarsFor k a ++ exemplarsFor k b := by
  induction a with
  | nil => rfl
  | cons s rest ih => simp [exemplarsFor, ih]

theorem exemplarsFor_eq_nil {k : LabelSet} {ss : List TimeSeries}
    (h : ∀ s ∈ ss, s.labels ≠ k) : exemplarsFor k ss = [] := by
  induction ss with
  | nil => rfl
  | cons s rest ih =>
    rw [exemplarsFor, if_neg (h s (List.mem_cons_self ..)),
      ih fun x hx => h x (List.mem_cons_of_mem _ hx), List.nil_append]

theorem mem_exemplarsFor {k : LabelSet} {ss : List TimeSeries} {x : Exemplar} :
    x ∈ exemplarsFor k ss ↔ ∃ s ∈ ss, s.labels = k ∧ x ∈ s.exemplars := by
  induction ss with
  | nil => simp [exemplarsFor]
  | cons s rest ih =>
    rw [exemplarsFor, List.mem_append, ih]
    by_cases hs : s.labels = k
    · simp only [if_pos hs, List.mem_cons]
      constructor
      · rintro (hx | ⟨y, hy, hyk, hyx⟩)
        · exact ⟨s, Or.inl rfl, hs, hx⟩
        · exact ⟨y, Or.inr hy, hyk, hyx⟩
      · rintro ⟨y, hy | hy, hyk, hyx⟩
        · exact Or.inl (hy ▸ hyx)
        · exact Or.inr ⟨y, hy, hyk, hyx⟩
    · simp only [if_neg hs, List.mem_cons]
      constructor
      · rintro (hx | ⟨y, hy, hyk, hyx⟩)
        · cases hx
        · exact ⟨y, Or.inr hy, hyk, hyx⟩
      · rintro ⟨y, hy | hy, hyk, hyx⟩
        · exact absurd (hy ▸ hyk) hs
        · exact Or.inr ⟨y, hy, hyk, hyx⟩

theorem exemplarsFor_of_nodup_mem {ss : List TimeSeries} {s : TimeSeries}
    (hn : (ss.map (·.labels)).Nodup) (hs : s ∈ ss) :
    exemplarsFor s.labels ss = s.exemplars := by
  induction ss with
  | nil => cases hs
  | cons x rest ih =>
    rw [List.map_cons, List.nodup_cons] at hn
    rcases List.mem_cons.mp hs with hs | hs
    · subst hs
      rw [exemplarsFor, if_pos rfl, exemplarsFor_eq_nil, List.append_nil]
      intro y hy hc
      exact hn.1 (hc ▸ List.mem_map.mpr ⟨y, hy, rfl⟩)
    · rw [exemplarsFor, if_neg, ih hn.2 hs, List.nil_append]
      intro hc
      exact hn.1 (hc ▸ List.mem_map.mpr ⟨s, hs, rfl⟩)

/-! ### Lemmas: folding the stream into the accumulator -/

theorem foldl_processResponse_eq {rs : List ExemplarQueryResponse} :
    ∀ {m : Accum},
      rs.foldl processResponse m =
        (seriesStream rs).foldl (fun m s => updateEntry m s.labels s.exemplars) m := by
  induction rs with
  | nil => intro m; rfl
  | cons r rs ih =>
    intro m
    rw [List.foldl_cons, ih, seriesStream_cons, List.foldl_append]
    rfl

theorem merge_eq_accumulate {rs : List ExemplarQueryResponse} :
    mergeExemplarQueryResponses rs =
      ⟨List.insertionSort seriesLe ((accumulate (seriesStream rs)).map fun kv =>
        { labels := kv.1, exemplars := List.insertionSort tsLe kv.2 })⟩ := by
  rw [mergeExemplarQueryResponses, accumulate, foldl_processResponse_eq]

theorem findAcc_foldl {ss : List TimeSeries} :
    ∀ {m : Accum} {k : LabelSet},
      findAcc (ss.foldl (fun m s => updateEntry m s.labels s.exemplars) m) k =
        match findAcc m k with
        | some v => some (insertExemplars v (exemplarsFor k ss))
        | none =>
          if ∃ s ∈ ss, s.labels = k then
            some (insertExemplars [] (exemplarsFor k ss))
          else none := by
  induction ss with
  | nil =>
    intro m k
    cases hf : findAcc m k <;> simp [exemplarsFor, insertExemplars, hf]
  | cons s ss ih =>
    intro m k
    rw [List.foldl_cons, ih, findAcc_updateEntry]
    by_cases hk : k = s.labels
    · rw [if_pos hk, ← hk]
      have hefor : exemplarsFor k (s :: ss) = s.exemplars ++ exemplarsFor k ss := by
        rw [exemplarsFor, if_pos hk.symm]
      rw [hefor]
      cases hf : findAcc m k with
      | some v =>
        simp only [hf, Option.getD_some, insertExemplars_append]
      | none =>
        simp only [hf, Option.getD_none, insertExemplars_append,
          if_pos (⟨s, List.mem_cons_self .., hk.symm⟩ : ∃ x ∈ s :: ss, x.labels = k)]
    · have hefor : exemplarsFor k (s :: ss) = exemplarsFor k ss := by
        rw [exemplarsFor, if_neg fun hc => hk hc.symm, List.nil_append]
      have hexcons : (∃ x ∈ s :: ss, x.labels = k) ↔ (∃ x ∈ ss, x.labels = k) := by
        constructor
        · rintro ⟨x, hx, hxk⟩
          rcases List.mem_cons.mp hx with hx | hx
          · exact absurd (hx ▸ hxk).symm hk
          · exact ⟨x, hx, hxk⟩
        · rintro ⟨x, hx, hxk⟩
          exact ⟨x, List.mem_cons_of_mem _ hx, hxk⟩
      rw [if_neg hk, hefor]
      cases hf : findAcc m k with
      | some v => simp only [hf]
      | none => simp only [hf, hexcons]

theorem findAcc_accumulate {ss : List TimeSeries} {k : LabelSet} :
    findAcc (accumulate ss) k =
      if ∃ s ∈ ss, s.labels = k then
        some (insertExemplars [] (exemplarsFor k ss))
      else none := by
  rw [accumulate, findAcc_foldl]
  rfl

theorem keys_foldl {ss : List TimeSeries} :
    ∀ {m : Accum},
      (ss.foldl (fun m s => updateEntry m s.labels s.exemplars) m).map Prod.fst =
        (ss.map (·.labels)).foldl insertKey (m.map Prod.fst) := by
  induction ss with
  | nil => intro m; rfl
  | cons s ss ih =>
    intro m
    rw [List.foldl_cons, ih, List.map_cons, List.foldl_cons, keys_updateEntry]

theorem keys_accumulate {ss : List TimeSeries} :
    (accumulate ss).map Prod.fst = firstSeenKeys ss := by
  rw [accumulate, keys_foldl]
  rfl

/-! ### Lemmas: first-seen key folding -/

theorem mem_foldl_insertKey {l : List LabelSet} :
    ∀ {ks : List LabelSet} {k : LabelSet},
      k ∈ l.foldl insertKey ks ↔ k ∈ ks ∨ k ∈ l := by
  induction l with
  | nil => intro ks k; simp
  | cons x rest ih =>
    intro ks k
    rw [List.foldl_cons, ih, insertKey]
    split
    · next hmem =>
      simp only [List.mem_cons]
      constructor
      · rintro (h | h)
        · exact Or.inl h
        · exact Or.inr (Or.inr h)
      · rintro (h | h | h)
        · exact Or.inl h
        · exact Or.inl (h ▸ hmem)
        · exact Or.inr h
    · simp [or_assoc]

theorem nodup_foldl_insertKey {l : List LabelSet} :
    ∀ {ks : List LabelSet}, ks.Nodup → (l.foldl insertKey ks).Nodup := by
  induction l with
  | nil => intro ks h; exact h
  | cons x rest ih =>
    intro ks h
    rw [List.foldl_cons]
    apply ih
    rw [insertKey]
    split
    · exact h
    · next hmem =>
      rw [List.nodup_append]
      exact ⟨h, List.nodup_singleton _, by
        intro a ha ha'
        simp only [List.mem_singleton] at ha'
        exact hmem (ha' ▸ ha)⟩

theorem foldl_insertKey_of_subset {l : List LabelSet} :
    ∀ {ks : List LabelSet}, (∀ k ∈ l, k ∈ ks) → l.foldl insertKey ks = ks := by
  induction l with
  | nil => intro ks _; rfl
  | cons x rest ih =>
    intro ks h
    rw [List.foldl_cons, insertKey, if_pos (h x (List.mem_cons_self ..))]
    exact ih fun k hk => h k (List.mem_cons_of_mem _ hk)

theorem foldl_insertKey_of_fresh {l : List LabelSet} :
    ∀ {ks : List LabelSet}, l.Nodup → (∀ k ∈ l, k ∉ ks) → l.foldl insertKey ks = ks ++ l := by
  induction l with
  | nil => intro ks _ _; simp
  | cons x rest ih =>
    intro ks hn h
    rw [List.nodup_cons] at hn
    rw [List.foldl_cons, insertKey, if_neg (h x (List.mem_cons_self ..))]
    rw [ih hn.2 ?_]
    · simp
    · intro k hk hmem
      rcases List.mem_append.mp hmem with hm | hm
      · exact h k (List.mem_cons_of_mem _ hk) hm
      · simp only [List.mem_singleton] at hm
        exact hn.1 (hm ▸ hk)

/-! ### Lemmas: the shape of the merged output -/

theorem flatKey_injective : Function.Injective flatKey := by
  intro a b h
  induction a generalizing b with
  | nil =>
    cases b with
    | nil => rfl
    | cons q rest =>
      obtain ⟨n, v⟩ := q
      simp [flatKey] at h
  | cons p rest ih =>
    obtain ⟨n, v⟩ := p
    cases b with
    | nil => simp [flatKey] at h
    | cons q rest2 =>
      obtain ⟨n2, v2⟩ := q
      simp only [flatKey, List.cons.injEq] at h
      obtain ⟨h1, h2, h3⟩ := h
      rw [h1, h2, ih h3]

theorem response_ext {x y : ExemplarQueryResponse} (h : x.timeseries = y.timeseries) :
    x = y := by
  cases x
  cases y
  cases h
  rfl

/-- The merged series a stream produces for a given label set: its exemplars,
first occurrence per timestamp, sorted ascending by timestamp. -/
def mergedSeriesOf (ss : List TimeSeries) (k : LabelSet) : TimeSeries :=
  ⟨k, List.insertionSort tsLe (insertExemplars [] (exemplarsFor k ss))⟩

theorem mergedSeriesOf_labels {ss : List TimeSeries} {k : LabelSet} :
    (mergedSeriesOf ss k).labels = k := rfl

theorem mem_firstSeenKeys {ss : List TimeSeries} {k : LabelSet} :
    k ∈ firstSeenKeys ss ↔ ∃ s ∈ ss, s.labels = k := by
  rw [firstSeenKeys, mem_foldl_insertKey]
  simp

theorem nodup_firstSeenKeys {ss : List TimeSeries} : (firstSeenKeys ss).Nodup :=
  nodup_foldl_insertKey List.nodup_nil

theorem accumulate_map_eq {ss : List TimeSeries} :
    ((accumulate ss).map fun kv =>
        ({ labels := kv.1, exemplars := List.insertionSort tsLe kv.2 } : TimeSeries)) =
      (firstSeenKeys ss).map (mergedSeriesOf ss) := by
  have hkn : ((accumulate ss).map Prod.fst).Nodup := by
    rw [keys_accumulate]
    exact nodup_firstSeenKeys
  conv_lhs => rw [accum_eq_map_keys hkn]
  rw [List.map_map, keys_accumulate]
  apply List.map_congr_left
  intro k hk
  simp only [Function.comp]
  rw [findAcc_accumulate, if_pos (mem_firstSeenKeys.mp hk)]
  rfl

theorem merge_timeseries_eq {rs : List ExemplarQueryResponse} :
    (mergeExemplarQueryResponses rs).timeseries =
      List.insertionSort seriesLe
        ((firstSeenKeys (seriesStream rs)).map (mergedSeriesOf (seriesStream rs))) := by
  rw [merge_eq_accumulate]
  show List.insertionSort seriesLe _ = _
  rw [accumulate_map_eq]

theorem mem_merge_iff {rs : List ExemplarQueryResponse} {s : TimeSeries} :
    s ∈ (mergeExemplarQueryResponses rs).timeseries ↔
      ∃ k ∈ firstSeenKeys (seriesStream rs), s = mergedSeriesOf (seriesStream rs) k := by
  rw [merge_timeseries_eq, (List.perm_insertionSort _ _).mem_iff, List.mem_map]
  constructor
  · rintro ⟨k, hk, hks⟩
    exact ⟨k, hk, hks.symm⟩
  · rintro ⟨k, hk, hks⟩
    exact ⟨k, hk, hks.symm⟩

theorem merge_labels_perm {rs : List ExemplarQueryResponse} :
    List.Perm ((mergeExemplarQueryResponses rs).timeseries.map (·.labels))
      (firstSeenKeys (seriesStream rs)) := by
  have h2 : List.Perm ((mergeExemplarQueryResponses rs).timeseries.map (·.labels))
      (((firstSeenKeys (seriesStream rs)).map (mergedSeriesOf (seriesStream rs))).map
        (·.labels)) := by
    rw [merge_timeseries_eq]
    exact (List.perm_insertionSort _ _).map _
  have h1 : ((firstSeenKeys (seriesStream rs)).map (mergedSeriesOf (seriesStream rs))).map
      (·.labels) = firstSeenKeys (seriesStream rs) := by
    rw [List.map_map]
    exact List.map_id' _
  rw [h1] at h2
  exact h2

theorem merge_labels_nodup {rs : List ExemplarQueryResponse} :
    ((mergeExemplarQueryResponses rs).timeseries.map (·.labels)).Nodup :=
  (List.Perm.nodup_iff merge_labels_perm).mpr nodup_firstSeenKeys

theorem merge_labels_mem {rs : List ExemplarQueryResponse} {k : LabelSet} :
    (∃ s ∈ (mergeExemplarQueryResponses rs).timeseries, s.labels = k) ↔
      ∃ s ∈ seriesStream rs, s.labels = k := by
  constructor
  · rintro ⟨s, hs, hk⟩
    obtain ⟨k2, hk2, hs2⟩ := mem_merge_iff.mp hs
    have : k2 = k := by rw [← hk, hs2, mergedSeriesOf_labels]
    exact mem_firstSeenKeys.mp (this ▸ hk2)
  · intro h
    refine ⟨mergedSeriesOf (seriesStream rs) k, ?_, mergedSeriesOf_labels⟩
    exact mem_merge_iff.mpr ⟨k, mem_firstSeenKeys.mpr h, rfl⟩

/-! ### Lemmas: sortedness upgrades -/

theorem pairwise_tsLt_of_sorted_nodup {es : List Exemplar}
    (hs : List.Sorted tsLe es) (hn : (es.map (·.timestampMs)).Nodup) :
    es.Pairwise tsLt := by
  have hne := List.pairwise_map.mp hn
  exact (hs.and hne).imp fun h => lt_of_le_of_ne h.1 h.2

theorem pairwise_seriesLt_of_sorted_nodup {l : List TimeSeries}
    (hs : List.Sorted seriesLe l) (hn : (l.map (·.labels)).Nodup) :
    l.Pairwise seriesLt := by
  have hflat : (l.map fun s => flatKey s.labels).Nodup := by
    have := hn.map (f := flatKey) fun a b hab => flatKey_injective hab
    rwa [List.map_map] at this
  have hne := List.pairwise_map.mp hflat
  exact (hs.and hne).imp fun h => lt_of_le_of_ne h.1 h.2

theorem merged_exemplars_pairwise {ss : List TimeSeries} {k : LabelSet} :
    (mergedSeriesOf ss k).exemplars.Pairwise tsLt := by
  have hsorted : List.Sorted tsLe (mergedSeriesOf ss k).exemplars :=
    List.sorted_insertionSort tsLe _
  have hperm : List.Perm (mergedSeriesOf ss k).exemplars
      (insertExemplars [] (exemplarsFor k ss)) :=
    List.perm_insertionSort tsLe _
  have hnodup : ((mergedSeriesOf ss k).exemplars.map (·.timestampMs)).Nodup :=
    ((hperm.map _).nodup_iff).mpr dedupTs_nodup
  exact pairwise_tsLt_of_sorted_nodup hsorted hnodup

theorem merge_pairwise_seriesLt {rs : List ExemplarQueryResponse} :
    (mergeExemplarQueryResponses rs).timeseries.Pairwise seriesLt := by
  have hsorted : List.Sorted seriesLe (mergeExemplarQueryResponses rs).timeseries := by
    rw [merge_timeseries_eq]
    exact List.sorted_insertionSort seriesLe _
  exact pairwise_seriesLt_of_sorted_nodup hsorted merge_labels_nodup

theorem mem_mergedSeriesOf {ss : List TimeSeries} {k : LabelSet} {x : Exemplar} :
    x ∈ (mergedSeriesOf ss k).exemplars ↔
      findTs (exemplarsFor k ss) x.timestampMs = some x := by
  show x ∈ List.insertionSort tsLe (insertExemplars [] (exemplarsFor k ss)) ↔ _
  rw [(List.perm_insertionSort tsLe _).mem_iff]
  exact mem_dedup_iff_findTs

/-! ### Lemmas: order-insensitivity of a series' merged exemplars under
distinct timestamps -/

theorem mergedSeriesOf_swap {ss₁ ss₂ : List TimeSeries} {k : LabelSet}
    (h : ((exemplarsFor k (ss₁ ++ ss₂)).map (·.timestampMs)).Nodup) :
    mergedSeriesOf (ss₁ ++ ss₂) k = mergedSeriesOf (ss₂ ++ ss₁) k := by
  have h12 : ((exemplarsFor k ss₁ ++ exemplarsFor k ss₂).map (·.timestampMs)).Nodup :=
    exemplarsFor_append ▸ h
  have hperm0 : List.Perm (exemplarsFor k ss₁ ++ exemplarsFor k ss₂)
      (exemplarsFor k ss₂ ++ exemplarsFor k ss₁) := List.perm_append_comm
  have h21 : ((exemplarsFor k ss₂ ++ exemplarsFor k ss₁).map (·.timestampMs)).Nodup :=
    ((hperm0.map _).nodup_iff).mp h12
  have hd12 := dedupTs_of_nodup h12
  have hd21 := dedupTs_of_nodup h21
  have hsortperm : List.Perm
      (List.insertionSort tsLe (exemplarsFor k ss₁ ++ exemplarsFor k ss₂))
      (List.insertionSort tsLe (exemplarsFor k ss₂ ++ exemplarsFor k ss₁)) :=
    ((List.perm_insertionSort tsLe _).trans hperm0).trans
      (List.perm_insertionSort tsLe _).symm
  have hs12 : (List.insertionSort tsLe
      (exemplarsFor k ss₁ ++ exemplarsFor k ss₂)).Pairwise tsLt :=
    pairwise_tsLt_of_sorted_nodup (List.sorted_insertionSort tsLe _)
      (((List.perm_insertionSort tsLe _).map _).nodup_iff.mpr h12)
  have hs21 : (List.insertionSort tsLe
      (exemplarsFor k ss₂ ++ exemplarsFor k ss₁)).Pairwise tsLt :=
    pairwise_tsLt_of_sorted_nodup (List.sorted_insertionSort tsLe _)
      (((List.perm_insertionSort tsLe _).map _).nodup_iff.mpr h21)
  have hsorteq := List.eq_of_perm_of_sorted hsortperm hs12 hs21
  unfold mergedSeriesOf
  rw [exemplarsFor_append, exemplarsFor_append, hd12, hd21, hsorteq]

/-! ### Lemmas: pairwise strict orders give distinctness and sortedness -/

theorem nodup_ts_of_pairwise_tsLt {es : List Exemplar} (h : es.Pairwise tsLt) :
    (es.map (·.timestampMs)).Nodup :=
  List.pairwise_map.mpr (h.imp fun hab => ne_of_lt hab)

theorem nodup_labels_of_pairwise_seriesLt {l : List TimeSeries}
    (h : l.Pairwise seriesLt) : (l.map (·.labels)).Nodup :=
  List.pairwise_map.mpr (h.imp fun hab hc => by
    unfold seriesLt at hab
    rw [hc] at hab
    exact lt_irrefl _ hab)

theorem accumulate_of_nodup_labels {ss : List TimeSeries}
    (hn : (ss.map (·.labels)).Nodup) :
    accumulate ss = ss.map fun s => (s.labels, insertExemplars [] s.exemplars) := by
  have hkeys : firstSeenKeys ss = ss.map (·.labels) := by
    rw [firstSeenKeys, foldl_insertKey_of_fresh hn (by simp), List.nil_append]
  have hkn : ((accumulate ss).map Prod.fst).Nodup := by
    rw [keys_accumulate, hkeys]
    exact hn
  rw [accum_eq_map_keys hkn, keys_accumulate, hkeys, List.map_map]
  apply List.map_congr_left
  intro s hs
  simp only [Function.comp]
  rw [findAcc_accumulate, if_pos ⟨s, hs, rfl⟩, Option.getD_some,
    exemplarsFor_of_nodup_mem hn hs]

/-! ### Main structural theorems used by the claims -/

theorem merge_comm_general (A B : ExemplarQueryResponse)
    (h : ∀ k ∈ (seriesStream [A, B]).map (·.labels),
        ((exemplarsFor k (seriesStream [A, B])).map (·.timestampMs)).Nodup) :
    mergeExemplarQueryResponses [A, B] = mergeExemplarQueryResponses [B, A] := by
  have hstream1 : seriesStream [A, B] = A.timeseries ++ B.timeseries := seriesStream_pair
  have hstream2 : seriesStream [B, A] = B.timeseries ++ A.timeseries := seriesStream_pair
  have hall : ∀ k,
      ((exemplarsFor k (A.timeseries ++ B.timeseries)).map (·.timestampMs)).Nodup := by
    intro k
    by_cases hk : ∃ s ∈ A.timeseries ++ B.timeseries, s.labels = k
    · have hin : k ∈ (seriesStream [A, B]).map (·.labels) := by
        rw [hstream1]
        exact List.mem_map.mpr ⟨hk.choose, hk.choose_spec.1, hk.choose_spec.2⟩
      have := h k hin
      rwa [hstream1] at this
    · rw [exemplarsFor_eq_nil fun s hs hc => hk ⟨s, hs, hc⟩]
      exact List.nodup_nil
  have hpt : ∀ k, mergedSeriesOf (A.timeseries ++ B.timeseries) k
      = mergedSeriesOf (B.timeseries ++ A.timeseries) k :=
    fun k => mergedSeriesOf_swap (hall k)
  have hkperm : List.Perm (firstSeenKeys (A.timeseries ++ B.timeseries))
      (firstSeenKeys (B.timeseries ++ A.timeseries)) := by
    apply (List.perm_ext_iff_of_nodup nodup_firstSeenKeys nodup_firstSeenKeys).mpr
    intro k
    rw [mem_firstSeenKeys, mem_firstSeenKeys]
    constructor
    · rintro ⟨s, hs, hk⟩
      rw [List.mem_append] at hs
      exact ⟨s, List.mem_append.mpr hs.symm, hk⟩
    · rintro ⟨s, hs, hk⟩
      rw [List.mem_append] at hs
      exact ⟨s, List.mem_append.mpr hs.symm, hk⟩
  have hfun : (firstSeenKeys (B.timeseries ++ A.timeseries)).map
        (mergedSeriesOf (A.timeseries ++ B.timeseries))
      = (firstSeenKeys (B.timeseries ++ A.timeseries)).map
        (mergedSeriesOf (B.timeseries ++ A.timeseries)) :=
    List.map_congr_left fun k _ => hpt k
  have hmperm : List.Perm
      ((firstSeenKeys (A.timeseries ++ B.timeseries)).map
        (mergedSeriesOf (A.timeseries ++ B.timeseries)))
      ((firstSeenKeys (B.timeseries ++ A.timeseries)).map
        (mergedSeriesOf (B.timeseries ++ A.timeseries))) := by
    rw [← hfun]
    exact hkperm.map _
  have houtperm : List.Perm (mergeExemplarQueryResponses [A, B]).timeseries
      (mergeExemplarQueryResponses [B, A]).timeseries := by
    rw [merge_timeseries_eq, merge_timeseries_eq, hstream1, hstream2]
    exact ((List.perm_insertionSort seriesLe _).trans hmperm).trans
      (List.perm_insertionSort seriesLe _).symm
  exact response_ext
    (List.eq_of_perm_of_sorted houtperm merge_pairwise_seriesLt merge_pairwise_seriesLt)

theorem merge_self_general (R : ExemplarQueryResponse)
    (h1 : R.timeseries.Pairwise seriesLt)
    (h2 : ∀ s ∈ R.timeseries, s.exemplars.Pairwise tsLt) :
    mergeExemplarQueryResponses [R, R] = R := by
  have hnl : (R.timeseries.map (·.labels)).Nodup := nodup_labels_of_pairwise_seriesLt h1
  have hstream : seriesStream [R, R] = R.timeseries ++ R.timeseries := seriesStream_pair
  have hkeys : firstSeenKeys (R.timeseries ++ R.timeseries) = R.timeseries.map (·.labels) := by
    have hinner : (R.timeseries.map (·.labels)).foldl insertKey []
        = R.timeseries.map (·.labels) := by
      rw [foldl_insertKey_of_fresh hnl (by simp), List.nil_append]
    rw [firstSeenKeys, List.map_append, List.foldl_append, hinner,
      foldl_insertKey_of_subset fun k hk => hk]
  have hpt : ∀ s ∈ R.timeseries,
      mergedSeriesOf (R.timeseries ++ R.timeseries) s.labels = s := by
    intro s hs
    have hex : exemplarsFor s.labels R.timeseries = s.exemplars :=
      exemplarsFor_of_nodup_mem hnl hs
    have hnt : (s.exemplars.map (·.timestampMs)).Nodup :=
      nodup_ts_of_pairwise_tsLt (h2 s hs)
    have hdedup : insertExemplars [] (s.exemplars ++ s.exemplars) = s.exemplars := by
      rw [insertExemplars_append, dedupTs_of_nodup hnt,
        insertExemplars_of_all_present fun e he => ⟨e, he, rfl⟩]
    have hsort : List.insertionSort tsLe s.exemplars = s.exemplars :=
      List.Sorted.insertionSort_eq ((h2 s hs).imp fun hab => le_of_lt hab)
    unfold mergedSeriesOf
    rw [exemplarsFor_append, hex, hdedup, hsort]
  have hmap : (firstSeenKeys (R.timeseries ++ R.timeseries)).map
      (mergedSeriesOf (R.timeseries ++ R.timeseries)) = R.timeseries := by
    rw [hkeys, List.map_map]
    exact (List.map_congr_left fun s hs => hpt s hs).trans (List.map_id' _)
  apply response_ext
  rw [merge_timeseries_eq, hstream, hmap]
  exact List.Sorted.insertionSort_eq (h1.imp fun hab => le_of_lt hab)

theorem exemplarsFor_eq_nil_of_empty {k : LabelSet} {ss : List TimeSeries}
    (h : ∀ s ∈ ss, s.labels = k → s.exemplars = []) : exemplarsFor k ss = [] := by
  induction ss with
  | nil => rfl
  | cons s rest ih =>
    rw [exemplarsFor, ih fun x hx => h x (List.mem_cons_of_mem _ hx), List.append_nil]
    split
    · next hs => exact h s (List.mem_cons_self ..) hs
    · rfl

/-- Helper for the first-wins property: the merge of `[X, Y]` keeps, for a
label set and timestamp, exactly the first exemplar `X` holds there. -/
theorem merged_keeps_first {X Y : ExemplarQueryResponse} {k : LabelSet} {t : Int}
    {e : Exemplar} (hX : findTs (exemplarsFor k X.timeseries) t = some e) :
    ∃ s ∈ (mergeExemplarQueryResponses [X, Y]).timeseries,
      s.labels = k ∧ e ∈ s.exemplars ∧ ∀ x ∈ s.exemplars, x.timestampMs = t → x = e := by
  have hstream : seriesStream [X, Y] = X.timeseries ++ Y.timeseries := seriesStream_pair
  have hefind : findTs (exemplarsFor k (seriesStream [X, Y])) t = some e := by
    rw [hstream, exemplarsFor_append, findTs_append, hX]
  obtain ⟨hmemX, het⟩ := findTs_some hX
  have hpresent : ∃ s ∈ seriesStream [X, Y], s.labels = k := by
    obtain ⟨s, hs, hsk, _⟩ := mem_exemplarsFor.mp hmemX
    exact ⟨s, by rw [hstream]; exact List.mem_append_left _ hs, hsk⟩
  refine ⟨mergedSeriesOf (seriesStream [X, Y]) k,
    mem_merge_iff.mpr ⟨k, mem_firstSeenKeys.mpr hpresent, rfl⟩, rfl, ?_, ?_⟩
  · exact mem_mergedSeriesOf.mpr (by rw [het, hefind])
  · intro x hx hxt
    have hfx := mem_mergedSeriesOf.mp hx
    rw [hxt, hefind] at hfx
    exact (Option.some.injEq ..).mp hfx.symm

/-! ### Concrete data of `TestMergeExemplars` (with `now = 0`) -/

def labels1 : LabelSet := [("label1", "foo1")]

def labels2 : LabelSet := [("label1", "foo2")]

def exemplar1 : Exemplar := ⟨[("traceID", "trace-1")], 0, 1⟩

def exemplar2 : Exemplar := ⟨[("traceID", "trace-2")], 1, 2⟩

def exemplar3 : Exemplar := ⟨[("traceID", "trace-3")], 4, 3⟩

def exemplar4 : Exemplar := ⟨[("traceID", "trace-4")], 8, 7⟩

def exemplar5 : Exemplar := ⟨[("traceID", "trace-4")], 0, 7⟩

def respA1 : ExemplarQueryResponse := ⟨[⟨labels1, [exemplar1, exemplar2, exemplar3]⟩]⟩

def respB1 : ExemplarQueryResponse := ⟨[⟨labels1, [exemplar5, exemplar3, exemplar4]⟩]⟩

def respA2 : ExemplarQueryResponse := ⟨[⟨labels1, [exemplar1, exemplar2]⟩]⟩

def respB2 : ExemplarQueryResponse := ⟨[⟨labels2, [exemplar3, exemplar4]⟩]⟩

def respL1 : ExemplarQueryResponse := ⟨[⟨labels1, []⟩]⟩

def respL2 : ExemplarQueryResponse := ⟨[⟨labels2, []⟩]⟩

def respUnsorted : ExemplarQueryResponse := ⟨[⟨labels1, [exemplar2, exemplar1]⟩]⟩

/-! ### The claims -/

/-- C1: when responses `A` and `B` hold, on the same label set, exemplars at
the same timestamp with different payloads, `merge [A, B]` retains `A`'s
exemplar at that timestamp (it is the unique exemplar there), `merge [B, A]`
retains `B`'s, and the two merge results differ — first input, first
occurrence wins. -/
theorem mergeExemplars_first_input_wins (A B : ExemplarQueryResponse) (k : LabelSet)
    (t : Int) (eA eB : Exemplar)
    (hA : findTs (exemplarsFor k A.timeseries) t = some eA)
    (hB : findTs (exemplarsFor k B.timeseries) t = some eB)
    (hne : eA ≠ eB) :
    (∃ s ∈ (mergeExemplarQueryResponses [A, B]).timeseries,
      s.labels = k ∧ eA ∈ s.exemplars ∧ ∀ x ∈ s.exemplars, x.timestampMs = t → x = eA)
    ∧ (∃ s ∈ (mergeExemplarQueryResponses [B, A]).timeseries,
      s.labels = k ∧ eB ∈ s.exemplars ∧ ∀ x ∈ s.exemplars, x.timestampMs = t → x = eB)
    ∧ mergeExemplarQueryResponses [A, B] ≠ mergeExemplarQueryResponses [B, A] := by
  refine ⟨merged_keeps_first hA, merged_keeps_first hB, ?_⟩
  intro hcontra
  obtain ⟨s₁, hs₁, hk₁, hmem₁, huniq₁⟩ := merged_keeps_first (Y := B) hA
  obtain ⟨s₂, hs₂, hk₂, hmem₂, _⟩ := merged_keeps_first (Y := A) hB
  rw [← hcontra] at hs₂
  have hseq : s₁ = s₂ :=
    List.inj_on_of_nodup_map merge_labels_nodup hs₁ hs₂ (hk₁.trans hk₂.symm)
  have hBt : eB.timestampMs = t := (findTs_some hB).2
  have : eB = eA := huniq₁ eB (hseq ▸ hmem₂) hBt
  exact hne this.symm

/-- C1 witness: the duplicate-timestamp test case, `exemplar1` versus
`exemplar5` at timestamp 0 on `labels1`. -/
theorem mergeExemplars_first_input_wins_witness :
    mergeExemplarQueryResponses [respA1, respB1]
      ≠ mergeExemplarQueryResponses [respB1, respA1] :=
  (mergeExemplars_first_input_wins respA1 respB1 labels1 0 exemplar1 exemplar5
    (by decide) (by decide) (by decide)).2.2

/-- C2: when no two exemplars across series with identical label sets share a
timestamp, the merge of two responses is commutative. -/
theorem mergeExemplars_commutative_of_disjoint_timestamps
    (A B : ExemplarQueryResponse)
    (h : ∀ k ∈ (seriesStream [A, B]).map (·.labels),
        ((exemplarsFor k (seriesStream [A, B])).map (·.timestampMs)).Nodup) :
    mergeExemplarQueryResponses [A, B] = mergeExemplarQueryResponses [B, A] :=
  merge_comm_general A B h

/-- C2 witness: the disjoint-series test case. -/
theorem mergeExemplars_commutative_of_disjoint_timestamps_witness :
    mergeExemplarQueryResponses [respA2, respB2]
      = mergeExemplarQueryResponses [respB2, respA2] :=
  mergeExemplars_commutative_of_disjoint_timestamps respA2 respB2 (by decide)

/-- C3: in every merged output, each series' exemplar sequence is strictly
increasing by timestamp — sorted, with no duplicate timestamps. -/
theorem mergeExemplars_output_strictly_sorted_by_timestamp
    (rs : List ExemplarQueryResponse) (s : TimeSeries)
    (hs : s ∈ (mergeExemplarQueryResponses rs).timeseries) :
    s.exemplars.Pairwise tsLt := by
  obtain ⟨k, _, rfl⟩ := mem_merge_iff.mp hs
  exact merged_exemplars_pairwise

/-- C3 witness: the merged duplicate-timestamp test case. -/
theorem mergeExemplars_output_strictly_sorted_by_timestamp_witness :
    ((⟨labels1, [exemplar1, exemplar2, exemplar3, exemplar4]⟩ : TimeSeries) ∈
      (mergeExemplarQueryResponses [respA1, respB1]).timeseries)
    ∧ ([exemplar1, exemplar2, exemplar3, exemplar4] : List Exemplar).Pairwise tsLt :=
  ⟨by decide, mergeExemplars_output_strictly_sorted_by_timestamp [respA1, respB1]
    ⟨labels1, [exemplar1, exemplar2, exemplar3, exemplar4]⟩ (by decide)⟩

/-- C4 counterexample: merging a response with itself is not the identity on
every response — a series whose exemplars are not sorted by timestamp comes
back sorted, so `merge [R, R] ≠ R` for this `R`. -/
theorem mergeExemplars_self_merge_not_identity :
    mergeExemplarQueryResponses [respUnsorted, respUnsorted] ≠ respUnsorted := by
  decide

/-- C4 amended: merging a response with itself yields it unchanged provided
the response is in merged canonical form — series strictly sorted by
canonical label key and each series' exemplars strictly sorted by
timestamp. -/
theorem mergeExemplars_idempotent_on_canonical (R : ExemplarQueryResponse)
    (h1 : R.timeseries.Pairwise seriesLt)
    (h2 : ∀ s ∈ R.timeseries, s.exemplars.Pairwise tsLt) :
    mergeExemplarQueryResponses [R, R] = R :=
  merge_self_general R h1 h2

/-- C4 witness: the self-merge test case. -/
theorem mergeExemplars_idempotent_on_canonical_witness :
    mergeExemplarQueryResponses [respA1, respA1] = respA1 :=
  mergeExemplars_idempotent_on_canonical respA1 (by decide) (by decide)

/-- C5 counterexample: the merged output is not in first-encountered order —
with the first response carrying `labels2` and the second `labels1`, the
output lists `labels1` first (canonical-key order), not `labels2`. -/
theorem mergeExemplars_output_not_first_seen_order :
    (mergeExemplarQueryResponses [respL2, respL1]).timeseries.map (·.labels)
      ≠ firstSeenKeys (seriesStream [respL2, respL1]) := by
  decide

/-- C5 amended: every label set present in some input appears exactly once in
the merged output, and the output series are sorted strictly ascending by
canonical label key (not listed in first-encountered order). -/
theorem mergeExemplars_series_exactly_once_sorted (rs : List ExemplarQueryResponse) :
    ((mergeExemplarQueryResponses rs).timeseries.map (·.labels)).Nodup
    ∧ (∀ k, (∃ s ∈ (mergeExemplarQueryResponses rs).timeseries, s.labels = k) ↔
        ∃ s ∈ seriesStream rs, s.labels = k)
    ∧ (mergeExemplarQueryResponses rs).timeseries.Pairwise seriesLt :=
  ⟨merge_labels_nodup, fun _ => merge_labels_mem, merge_pairwise_seriesLt⟩

/-- C6: a series all of whose occurrences carry no exemplars still appears in
the merged output, as an empty series — presence is not pruned. -/
theorem mergeExemplars_keeps_empty_series (rs : List ExemplarQueryResponse)
    (k : LabelSet)
    (hmem : ∃ s ∈ seriesStream rs, s.labels = k)
    (hempty : ∀ s ∈ seriesStream rs, s.labels = k → s.exemplars = []) :
    ∃ s ∈ (mergeExemplarQueryResponses rs).timeseries,
      s.labels = k ∧ s.exemplars = [] := by
  refine ⟨mergedSeriesOf (seriesStream rs) k,
    mem_merge_iff.mpr ⟨k, mem_firstSeenKeys.mpr hmem, rfl⟩, rfl, ?_⟩
  show (mergedSeriesOf (seriesStream rs) k).exemplars = []
  unfold mergedSeriesOf
  rw [exemplarsFor_eq_nil_of_empty hempty]
  rfl

/-- C6 witness: merging an empty `labels1` series with an empty `labels1`
series keeps the empty series. -/
theorem mergeExemplars_keeps_empty_series_witness :
    ∃ s ∈ (mergeExemplarQueryResponses [respL1, respL1]).timeseries,
      s.labels = labels1 ∧ s.exemplars = [] :=
  mergeExemplars_keeps_empty_series [respL1, respL1] labels1 (by decide) (by decide)

/-! ### gRPC client configuration claims -/

/-- The default `Config` of the registered flags (sizes `100 << 20` and
`16 << 20`), used as base for concrete configurations. -/
def defaultConfig : Config :=
  ⟨104857600, 16777216, "", 0, 0, false, false⟩

/-- C7 counterexample: the literal codec name "none" is rejected by
`Config.Validate`, although the claim's enumerated set contains `none` — the
accepted spelling of disabled compression is the empty string. -/
theorem validate_rejects_literal_none :
    { defaultConfig with GRPCCompression := "none" : Config }.Validate ≠ none := by
  decide

/-- C7 amended: `Config.Validate` errors exactly when the codec name is
outside `{"", "gzip", "snappy", "snappy-block", "zstd"}` — disabled
compression is the empty string, not the literal name "none". -/
theorem validate_error_iff_unknown_codec (cfg : Config) :
    cfg.Validate ≠ none ↔
      cfg.GRPCCompression ∉ ["", gzipName, snappyName, snappyBlockName, zstdName] := by
  rw [Config.Validate]
  split
  · next h =>
    simp only [ne_eq, not_true_eq_false, false_iff, not_not, List.mem_cons,
      List.mem_singleton, List.not_mem_nil, or_false]
    tauto
  · next h =>
    constructor
    · intro _ hmem
      apply h
      simp only [List.mem_cons, List.mem_singleton, List.not_mem_nil, or_false] at hmem
      tauto
    · intro _
      exact Option.some_ne_none _

/-- C7 amended witness: "lz4" is outside the accepted set, so it is
rejected. -/
theorem validate_error_iff_unknown_codec_witness :
    ({ defaultConfig with GRPCCompression := "lz4" : Config }.Validate ≠ none)
    ∧ "lz4" ∉ ["", gzipName, snappyName, snappyBlockName, zstdName] :=
  ⟨(validate_error_iff_unknown_codec _).mpr (by decide), by decide⟩

/-- The configuration of the C8 counterexample: rate limiting and
backoff-on-ratelimits enabled. -/
def cfgBackoff : Config := { defaultConfig with RateLimit := 1, BackoffOnRatelimits := true }

/-- C8 counterexample: with `BackoffOnRatelimits` enabled the backoff-retry
interceptor is installed, but it is not innermost — a caller-provided
interceptor sits inside (after) it, and the rate limiter sits outside it. -/
theorem backoffRetry_not_innermost :
    UnaryInterceptor.backoffRetry
        ∈ cfgBackoff.unaryInterceptorChain [UnaryInterceptor.provided 0]
    ∧ (cfgBackoff.unaryInterceptorChain [UnaryInterceptor.provided 0]).getLast?
        ≠ some UnaryInterceptor.backoffRetry := by
  decide

/-- C8 amended: when `BackoffOnRatelimits` is enabled, exactly one
backoff-retry interceptor is installed, placed directly inside the rate
limiter when `RateLimit > 0` (otherwise outermost) and outside every
caller-provided and signing interceptor — so rate-limit rejections of the
rate-limiter interceptor are produced outside it; when disabled, no
backoff-retry interceptor is installed. -/
theorem backoffRetry_position (cfg : Config) (l : List UnaryInterceptor)
    (hl : UnaryInterceptor.backoffRetry ∉ l) :
    (cfg.BackoffOnRatelimits = true →
      cfg.unaryInterceptorChain l =
        (if 0 < cfg.RateLimit then [UnaryInterceptor.rateLimiter] else [])
          ++ UnaryInterceptor.backoffRetry :: l
          ++ (if cfg.SignWriteRequestsEnabled then [UnaryInterceptor.signing] else []))
    ∧ (cfg.BackoffOnRatelimits = false →
        UnaryInterceptor.backoffRetry ∉ cfg.unaryInterceptorChain l) := by
  constructor
  · intro hb
    simp only [Config.unaryInterceptorChain, hb, if_true]
    split
    · split <;> simp
    · split <;> simp
  · intro hb
    simp only [Config.unaryInterceptorChain, hb, Bool.false_eq_true, if_false]
    split
    · split <;> simp [hl]
    · split <;> simp [hl]

/-- C8 amended witness: the concrete chain of `cfgBackoff` with one provided
interceptor. -/
theorem backoffRetry_position_witness :
    cfgBackoff.unaryInterceptorChain [UnaryInterceptor.provided 0]
      = (if 0 < cfgBackoff.RateLimit then [UnaryInterceptor.rateLimiter] else [])
          ++ UnaryInterceptor.backoffRetry :: [UnaryInterceptor.provided 0]
          ++ (if cfgBackoff.SignWriteRequestsEnabled then [UnaryInterceptor.signing]
              else []) :=
  (backoffRetry_position cfgBackoff [UnaryInterceptor.provided 0] (by decide)).1 (by decide)

/-- C9: the rate-limiter interceptor is the first (outermost) interceptor of
the chain exactly when `RateLimit > 0`, and when `RateLimit = 0` no
rate-limiter interceptor appears anywhere in the chain. -/
theorem rateLimiter_outermost_iff (cfg : Config) (l : List UnaryInterceptor)
    (hl : UnaryInterceptor.rateLimiter ∉ l) :
    ((cfg.unaryInterceptorChain l).head? = some UnaryInterceptor.rateLimiter ↔
      0 < cfg.RateLimit)
    ∧ (cfg.RateLimit = 0 →
        UnaryInterceptor.rateLimiter ∉ cfg.unaryInterceptorChain l) := by
  simp only [Config.unaryInterceptorChain]
  by_cases hrl : 0 < cfg.RateLimit
  · rw [if_pos hrl]
    refine ⟨⟨fun _ => hrl, fun _ => ?_⟩, fun h0 => absurd (h0 ▸ hrl) (lt_irrefl 0)⟩
    split <;> simp
  · rw [if_neg hrl]
    have hl1 : UnaryInterceptor.rateLimiter ∉
        (if cfg.BackoffOnRatelimits then UnaryInterceptor.backoffRetry :: l else l) := by
      split
      · intro hc
        rcases List.mem_cons.mp hc with hc | hc
        · simp at hc
        · exact hl hc
      · exact hl
    split
    · have hmem : UnaryInterceptor.rateLimiter ∉
          (if cfg.BackoffOnRatelimits then UnaryInterceptor.backoffRetry :: l else l)
            ++ [UnaryInterceptor.signing] := by
        rw [List.mem_append]
        rintro (hc | hc)
        · exact hl1 hc
        · simp at hc
      exact ⟨⟨fun hh => absurd (List.mem_of_mem_head? hh) hmem,
        fun hc => absurd hc hrl⟩, fun _ => hmem⟩
    · exact ⟨⟨fun hh => absurd (List.mem_of_mem_head? hh) hl1,
        fun hc => absurd hc hrl⟩, fun _ => hl1⟩

/-- C9 witness: with `RateLimit = 1` the rate limiter heads the chain; the
disabled case at `RateLimit = 0` keeps it out entirely. -/
theorem rateLimiter_outermost_iff_witness :
    ((cfgBackoff.unaryInterceptorChain [UnaryInterceptor.provided 0]).head?
        = some UnaryInterceptor.rateLimiter)
    ∧ (UnaryInterceptor.rateLimiter
        ∉ defaultConfig.unaryInterceptorChain [UnaryInterceptor.provided 0]) :=
  ⟨(rateLimiter_outermost_iff cfgBackoff [UnaryInterceptor.provided 0]
      (by decide)).1.mpr (by decide),
    (rateLimiter_outermost_iff defaultConfig [UnaryInterceptor.provided 0]
      (by decide)).2 (by decide)⟩

/-- C10: the empty string (disabled compression) passes `Config.Validate`;
`Config.CallOptions` always contains the receive and send size ceilings and
contains a compressor option exactly when `GRPCCompression` is non-empty;
the literal name "none" is not the disabled spelling and fails validation. -/
theorem compression_empty_string_semantics (cfg : Config) :
    (cfg.GRPCCompression = "" → cfg.Validate = none)
    ∧ CallOption.maxCallRecvMsgSize cfg.MaxRecvMsgSize ∈ cfg.CallOptions
    ∧ CallOption.maxCallSendMsgSize cfg.MaxSendMsgSize ∈ cfg.CallOptions
    ∧ ((∃ s, CallOption.useCompressor s ∈ cfg.CallOptions) ↔ cfg.GRPCCompression ≠ "")
    ∧ (cfg.GRPCCompression = "none" → cfg.Validate ≠ none) := by
  refine ⟨?_, ?_, ?_, ?_, ?_⟩
  · intro h
    rw [Config.Validate, if_pos (Or.inr (Or.inr (Or.inr (Or.inr h))))]
  · simp only [Config.CallOptions]
    split <;> simp
  · simp only [Config.CallOptions]
    split <;> simp
  · simp only [Config.CallOptions]
    constructor
    · rintro ⟨s, hs⟩
      split at hs
      · next hne => exact hne
      · simp at hs
    · intro hne
      rw [if_pos hne]
      exact ⟨cfg.GRPCCompression, by simp⟩
  · intro h
    rw [Config.Validate, if_neg ?_]
    · exact Option.some_ne_none _
    · rw [h]
      decide

/-- C10 witness: the flag-default configuration (empty compression). -/
theorem compression_empty_string_semantics_witness :
    defaultConfig.Validate = none
    ∧ ¬∃ s, CallOption.useCompressor s ∈ defaultConfig.CallOptions := by
  have h := compression_empty_string_semantics defaultConfig
  exact ⟨h.1 (by decide), fun hex => (h.2.2.2.1.mp hex) (by decide)⟩

end Cortex
